import Mathlib

/-!
Verification development for a fixed-capacity, stack-allocated UTF-8 string
type (RawArrayString). The type stores its text in an inline byte buffer of
capacity N with no separate length field: the current length is recovered by
scanning for the first 0x00 sentinel byte (length N when no byte is zero).

Shallow embedding: a value of capacity N is modelled as a list of N natural
numbers (its buffer bytes). Uninitialized buffer contents are modelled by
quantifying over an arbitrary initial list. Rust str values are modelled as
byte lists that satisfy the UTF-8 validity predicate below.
-/

set_option maxHeartbeats 1000000

namespace RawArrayString

/-- Continuation byte test for UTF-8: second and later bytes of a multi-byte
sequence lie in 0x80..=0xBF. -/
def isCont (c : Nat) : Bool := 0x80 ≤ c && c ≤ 0xBF

/-- Allowed second byte of a three-byte UTF-8 sequence, given the leading
byte b: 0xE0 requires 0xA0..=0xBF (no overlong forms), 0xED requires
0x80..=0x9F (no surrogates), other leads take any continuation byte. -/
def cont3 (b c1 : Nat) : Bool :=
  if b = 0xE0 then 0xA0 ≤ c1 && c1 ≤ 0xBF
  else if b = 0xED then 0x80 ≤ c1 && c1 ≤ 0x9F
  else isCont c1

/-- Allowed second byte of a four-byte UTF-8 sequence, given the leading
byte b: 0xF0 requires 0x90..=0xBF (no overlong forms), 0xF4 requires
0x80..=0x8F (codepoints at most U+10FFFF), other leads take any
continuation byte. -/
def cont4 (b c1 : Nat) : Bool :=
  if b = 0xF0 then 0x90 ≤ c1 && c1 ≤ 0xBF
  else if b = 0xF4 then 0x80 ≤ c1 && c1 ≤ 0x8F
  else isCont c1

mutual

/-- UTF-8 validity of a byte sequence, mirroring the validation performed by
Rust's str conversion (the exact table of accepted byte ranges): one-byte
characters are 0x00..=0x7F, leading bytes 0x80..=0xC1 and 0xF5.. are
invalid, and multi-byte sequences delegate to the tail checkers below. -/
def utf8Valid : List Nat → Bool
  | [] => true
  | b :: rest =>
    if b ≤ 0x7F then utf8Valid rest
    else if b < 0xC2 then false
    else if b ≤ 0xDF then utf8Tail1 rest
    else if b ≤ 0xEF then utf8Tail2 b rest
    else if b ≤ 0xF4 then utf8Tail3 b rest
    else false

/-- Tail of a two-byte UTF-8 sequence: one continuation byte. -/
def utf8Tail1 : List Nat → Bool
  | c1 :: r => isCont c1 && utf8Valid r
  | [] => false

/-- Tail of a three-byte UTF-8 sequence after leading byte b: a constrained
second byte and one continuation byte. -/
def utf8Tail2 (b : Nat) : List Nat → Bool
  | c1 :: c2 :: r => cont3 b c1 && isCont c2 && utf8Valid r
  | _ => false

/-- Tail of a four-byte UTF-8 sequence after leading byte b: a constrained
second byte and two continuation bytes. -/
def utf8Tail3 (b : Nat) : List Nat → Bool
  | c1 :: c2 :: c3 :: r => cont4 b c1 && isCont c2 && isCont c3 && utf8Valid r
  | _ => false

end

/-- Inductive characterization of UTF-8 validity, one constructor per
encoded-character width. -/
inductive Utf8 : List Nat → Prop where
  | nil : Utf8 []
  | ascii {b rest} : b ≤ 0x7F → Utf8 rest → Utf8 (b :: rest)
  | two {b c1 rest} : 0xC2 ≤ b → b ≤ 0xDF → isCont c1 = true → Utf8 rest →
      Utf8 (b :: c1 :: rest)
  | three {b c1 c2 rest} : 0xE0 ≤ b → b ≤ 0xEF → cont3 b c1 = true →
      isCont c2 = true → Utf8 rest → Utf8 (b :: c1 :: c2 :: rest)
  | four {b c1 c2 c3 rest} : 0xF0 ≤ b → b ≤ 0xF4 → cont4 b c1 = true →
      isCont c2 = true → isCont c3 = true → Utf8 rest →
      Utf8 (b :: c1 :: c2 :: c3 :: rest)

/-- Modelled from the spec: the generic capacity-exceeded error type
(crate::errors::CapacityError, not under src/). Per the spec it carries the
rejected input back to the caller unmodified; element returns it. -/
structure CapacityError (α : Type) where
  element : α
  deriving DecidableEq, Repr

/-- Modelled from the spec: the standard-library UTF-8 decoding error type
(std::str::Utf8Error, external). Only its identity matters here: it is a
type distinct from CapacityError, so an encoding failure is not a capacity
failure. -/
structure Utf8Error where
  deriving DecidableEq, Repr

/-- Length of the stored text, from RawArrayString::len: the index of the
first 0x00 byte in the buffer, or the capacity when no byte is zero
(List.findIdx returns the list length when no element matches). -/
def len (buf : List Nat) : Nat := buf.findIdx (· == 0)

/-- Capacity of a value, from RawArrayString::capacity: the buffer holds
exactly A::CAPACITY bytes, so capacity is the buffer length. -/
def capacity (buf : List Nat) : Nat := buf.length

/-- Emptiness test, from RawArrayString::is_empty: reads the first buffer
byte and compares it with 0. For capacity 0 the source dereferences the
first byte of a zero-length buffer (out of bounds); the model returns false
there, as no byte of the value exists to be zero. -/
def is_empty (buf : List Nat) : Bool :=
  match buf.head? with
  | some b => b == 0
  | none => false

/-- Fresh value, from RawArrayString::new: the buffer starts uninitialized
(modelled by an arbitrary list g of capacity length) and the first byte is
set to 0. -/
def new (g : List Nat) : List Nat := g.set 0 0

/-- Make the string empty, from RawArrayString::clear: unconditionally set
the first buffer byte to 0. -/
def clear (buf : List Nat) : List Nat := buf.set 0 0

/-- Byte copy into the buffer, modelling ptr::copy_nonoverlapping of the
bytes s to buffer offset k. -/
def writeBytes (buf : List Nat) (k : Nat) (s : List Nat) : List Nat :=
  buf.take k ++ s ++ buf.drop (k + s.length)

/-- Fallible append, from RawArrayString::try_push_str. Returns the buffer
after the call together with the result: if the pushed text is longer than
the remaining capacity, fail with a CapacityError carrying the text and do
not touch the buffer; if it fills the remaining capacity exactly, copy it
with no sentinel; otherwise copy it and write a 0x00 sentinel just after. -/
def try_push_str (buf s : List Nat) :
    List Nat × Except (CapacityError (List Nat)) Unit :=
  if s.length > capacity buf - len buf then
    (buf, .error ⟨s⟩)
  else if s.length = capacity buf - len buf then
    (writeBytes buf (len buf) s, .ok ())
  else
    ((writeBytes buf (len buf) s).set (len buf + s.length) 0, .ok ())

/-- Panicking append, from RawArrayString::push_str: unwrap the result of
try_push_str; none models the panic on overflow. -/
def push_str (buf s : List Nat) : Option (List Nat) :=
  match try_push_str buf s with
  | (b, .ok _) => some b
  | (_, .error _) => none

/-- Fallible construction from a str, from RawArrayString::from: start from
a fresh value (with arbitrary uninitialized contents g) and try_push_str
the text, propagating a capacity error. -/
def fromStr (s g : List Nat) : Except (CapacityError (List Nat)) (List Nat) :=
  let r := try_push_str (new g) s
  match r.2 with
  | .ok _ => .ok r.1
  | .error e => .error e

/-- Construction from a raw capacity-N byte buffer, from
RawArrayString::from_byte_string: validate the whole buffer as UTF-8 (the
question mark operator propagates the Utf8Error) and otherwise take the
bytes as they are. The debug assertion compares the str byte length with
the capacity; both equal the buffer length, so it never fires. -/
def from_byte_string (b : List Nat) : Except Utf8Error (List Nat) :=
  if utf8Valid b then .ok b else .error ⟨⟩

/-- Read-only text view, from the Deref implementation: the first len bytes
of the buffer, reinterpreted as text without re-validation. -/
def deref (buf : List Nat) : List Nat := buf.take (len buf)

/-- Value equality, from the PartialEq implementation for two
RawArrayString values of the same capacity: compare the two text views. -/
def eqRaw (a b : List Nat) : Bool := deref a == deref b

/-- Mixed equality, from the PartialEq implementation comparing a
RawArrayString with a str: compare the text view with the str bytes. -/
def eqRawStr (a s : List Nat) : Bool := deref a == s

/-- Mixed equality, from the PartialEq implementation comparing a str with
a RawArrayString: compare the str bytes with the text view. -/
def eqStrRaw (s a : List Nat) : Bool := s == deref a

/-- Serialization, from the Serialize implementation: emit the text view as
a single string value. -/
def serialize (buf : List Nat) : List Nat := deref buf

/-- Deserialization failures surfaced by the visitor: a length mismatch
reporting the input length and the expected capacity (serde invalid_length
with the expecting message naming A::CAPACITY), or a value-validity
failure for non-UTF-8 byte input (serde invalid_value). -/
inductive DeError where
  | invalidLength (got : Nat) (capa : Nat)
  | invalidValue
  deriving DecidableEq, Repr

/-- String deserialization, from the visitor's visit_str: build the value
through the fallible from constructor (g models the fresh value's
uninitialized contents) and map a capacity error to invalid_length carrying
the input's length and the capacity. -/
def visit_str (g v : List Nat) : Except DeError (List Nat) :=
  match fromStr v g with
  | .ok b => .ok b
  | .error _ => .error (.invalidLength v.length g.length)

/-- Byte-sequence deserialization, from the visitor's visit_bytes: check
UTF-8 first, surfacing invalid_value on failure, then proceed as for a
string. -/
def visit_bytes (g v : List Nat) : Except DeError (List Nat) :=
  if utf8Valid v then visit_str g v else .error .invalidValue

/-- Sentinel-encoding invariant I1: every byte strictly before the current
length is nonzero, and when the length is below capacity the byte at the
length index is the 0x00 sentinel. When length equals capacity this says
the whole used range is zero-free. -/
def SentinelInv (buf : List Nat) : Prop :=
  (len buf < buf.length → buf[len buf]? = some 0) ∧
  (∀ k, k < len buf → ¬ buf[k]? = some 0)

theorem len_nil : len ([] : List Nat) = 0 := rfl

theorem len_cons (b : Nat) (t : List Nat) :
    len (b :: t) = if b = 0 then 0 else len t + 1 := by
  by_cases hb : b = 0
  · simp [len, List.findIdx_cons, hb]
  · have hbb : (b == 0) = false := by simp [hb]
    simp [len, List.findIdx_cons, hbb, hb]

theorem len_le_length (buf : List Nat) : len buf ≤ buf.length := by
  induction buf with
  | nil => simp [len_nil]
  | cons b t ih =>
    rw [len_cons]
    by_cases hb : b = 0
    · simp [hb]
    · simp [hb]; omega

theorem deref_eq_takeWhile (buf : List Nat) :
    deref buf = buf.takeWhile (fun x => x != 0) := by
  induction buf with
  | nil => rfl
  | cons b t ih =>
    by_cases hb : b = 0
    · simp [deref, len_cons, hb, List.takeWhile_cons]
    · simp only [deref, len_cons, hb, if_neg, List.takeWhile_cons]
      simp only [deref] at ih
      simp [hb, List.take_succ_cons, ih]

theorem len_eq_takeWhile_length (buf : List Nat) :
    len buf = (buf.takeWhile (fun x => x != 0)).length := by
  induction buf with
  | nil => rfl
  | cons b t ih =>
    by_cases hb : b = 0 <;> simp [len_cons, hb, List.takeWhile_cons, ih]

theorem takeWhile_append_of_all {p : Nat → Bool} (a b : List Nat)
    (h : ∀ x ∈ a, p x = true) :
    (a ++ b).takeWhile p = a ++ b.takeWhile p := by
  induction a with
  | nil => simp
  | cons x t ih =>
    have hx : p x = true := h x (by simp)
    simp only [List.cons_append, List.takeWhile_cons, hx, if_pos]
    rw [ih fun y hy => h y (by simp [hy])]

theorem takeWhile_append_zero (s t : List Nat) :
    (s ++ 0 :: t).takeWhile (fun x => x != 0) = s.takeWhile (fun x => x != 0) := by
  induction s with
  | nil => simp [List.takeWhile_cons]
  | cons x r ih =>
    by_cases hx : x = 0 <;> simp [List.takeWhile_cons, hx, ih]

theorem takeWhile_eq_self_of_all (s : List Nat) (h : ∀ x ∈ s, x ≠ 0) :
    s.takeWhile (fun x => x != 0) = s := by
  induction s with
  | nil => rfl
  | cons x r ih =>
    have hx : x ≠ 0 := h x (by simp)
    have hxb : (x != 0) = true := by simp [hx]
    rw [List.takeWhile_cons, if_pos hxb, ih fun y hy => h y (by simp [hy])]

theorem mem_deref_ne_zero (buf : List Nat) : ∀ x ∈ deref buf, x ≠ 0 := by
  rw [deref_eq_takeWhile]
  intro x hx
  have := List.mem_takeWhile_imp hx
  simpa using this

theorem len_append_of_all (a b : List Nat) (h : ∀ x ∈ a, x ≠ 0) :
    len (a ++ b) = a.length + len b := by
  induction a with
  | nil => simp
  | cons x t ih =>
    have hx : x ≠ 0 := h x (by simp)
    rw [List.cons_append, len_cons, if_neg hx, ih fun y hy => h y (by simp [hy])]
    simp
    omega

theorem deref_length (buf : List Nat) : (deref buf).length = len buf := by
  rw [deref_eq_takeWhile, ← len_eq_takeWhile_length]

theorem sentinel_all (buf : List Nat) : SentinelInv buf := by
  induction buf with
  | nil => exact ⟨by simp [len_nil], by simp [len_nil]⟩
  | cons b t ih =>
    by_cases hb : b = 0
    · refine ⟨fun h => ?_, fun k hk => ?_⟩
      · simp [len_cons, hb]
      · rw [len_cons, if_pos hb] at hk
        omega
    · refine ⟨fun h => ?_, fun k hk => ?_⟩
      · rw [len_cons, if_neg hb] at h ⊢
        simp only [List.length_cons] at h
        rw [List.getElem?_cons_succ]
        exact ih.1 (by omega)
      · rw [len_cons, if_neg hb] at hk
        match k with
        | 0 => simp [hb]
        | k + 1 =>
          rw [List.getElem?_cons_succ]
          exact ih.2 k (by omega)

theorem set_zero_len (l : List Nat) : len (l.set 0 0) = 0 := by
  cases l with
  | nil => rfl
  | cons b t => simp [List.set, len_cons]

theorem new_len (g : List Nat) : len (new g) = 0 := set_zero_len g

theorem new_length (g : List Nat) : (new g).length = g.length := by
  simp [new]

theorem new_deref (g : List Nat) : deref (new g) = [] := by
  simp [deref, new_len]

theorem clear_len (buf : List Nat) : len (clear buf) = 0 := set_zero_len buf

theorem clear_deref (buf : List Nat) : deref (clear buf) = [] := by
  simp [deref, clear_len]

theorem set_append_len {α : Type} (a b : List α) (x : α) :
    (a ++ b).set a.length x = a ++ b.set 0 x := by
  induction a with
  | nil => simp
  | cons h t ih => simp [ih]

theorem try_push_str_err (buf s : List Nat)
    (h : capacity buf - len buf < s.length) :
    try_push_str buf s = (buf, .error ⟨s⟩) := by
  unfold try_push_str
  rw [if_pos (by omega)]

theorem try_push_str_ok (buf s : List Nat)
    (h : s.length ≤ capacity buf - len buf) :
    (try_push_str buf s).2 = .ok () ∧
    (try_push_str buf s).1.length = buf.length ∧
    deref (try_push_str buf s).1 = deref buf ++ s.takeWhile (fun x => x != 0) ∧
    len (try_push_str buf s).1 = len buf + (s.takeWhile (fun x => x != 0)).length := by
  have hk : len buf ≤ buf.length := len_le_length buf
  have hall : ∀ x ∈ deref buf, x ≠ 0 := mem_deref_ne_zero buf
  by_cases heq : s.length = capacity buf - len buf
  · have hgt : ¬ s.length > capacity buf - len buf := by omega
    unfold try_push_str
    rw [if_neg hgt, if_pos heq]
    have hcap : capacity buf = buf.length := rfl
    have hdrop : buf.drop (len buf + s.length) = [] := by
      apply List.drop_eq_nil_of_le
      omega
    have hw : writeBytes buf (len buf) s = deref buf ++ s := by
      unfold writeBytes deref
      rw [hdrop, List.append_nil]
    refine ⟨rfl, ?_, ?_, ?_⟩
    · simp only [hw]
      rw [List.length_append, deref_length]
      omega
    · simp only [hw]
      rw [deref_eq_takeWhile]
      exact takeWhile_append_of_all _ _ fun x hx => by simp [hall x hx]
    · simp only [hw]
      rw [len_append_of_all _ _ hall, deref_length, len_eq_takeWhile_length s]
  · have hlt : s.length < capacity buf - len buf := by omega
    have hgt : ¬ s.length > capacity buf - len buf := by omega
    have hcap : capacity buf = buf.length := rfl
    unfold try_push_str
    rw [if_neg hgt, if_neg heq]
    have hlen_take : (buf.take (len buf)).length = len buf := by
      simp [List.length_take]
      omega
    have hlen2 : (buf.take (len buf) ++ s).length = len buf + s.length := by
      rw [List.length_append, hlen_take]
    have hset : (writeBytes buf (len buf) s).set (len buf + s.length) 0
        = buf.take (len buf) ++ s ++ (buf.drop (len buf + s.length)).set 0 0 := by
      unfold writeBytes
      rw [← hlen2, set_append_len]
    have hne : buf.drop (len buf + s.length) ≠ [] := by
      intro hnil
      have := congrArg List.length hnil
      simp at this
      omega
    obtain ⟨d, t, hdt⟩ : ∃ d t, buf.drop (len buf + s.length) = d :: t := by
      cases hD : buf.drop (len buf + s.length) with
      | nil => exact absurd hD hne
      | cons d t => exact ⟨d, t, rfl⟩
    have hdl : t.length = buf.length - (len buf + s.length) - 1 := by
      have := congrArg List.length hdt
      simp at this
      omega
    have hbuf1 : (writeBytes buf (len buf) s).set (len buf + s.length) 0
        = deref buf ++ (s ++ 0 :: t) := by
      rw [hset, hdt]
      unfold deref
      rw [List.append_assoc]
      rfl
    refine ⟨rfl, ?_, ?_, ?_⟩
    · simp only [hbuf1]
      rw [List.length_append, deref_length]
      simp
      omega
    · simp only [hbuf1]
      rw [deref_eq_takeWhile]
      rw [takeWhile_append_of_all _ _ fun x hx => by simp [hall x hx]]
      rw [takeWhile_append_zero]
    · simp only [hbuf1]
      rw [len_append_of_all _ _ hall, deref_length, len_eq_takeWhile_length (s ++ 0 :: t),
        takeWhile_append_zero]

theorem Utf8.append {a b : List Nat} (ha : Utf8 a) (hb : Utf8 b) :
    Utf8 (a ++ b) := by
  induction ha with
  | nil => simpa
  | ascii h _ ih => exact Utf8.ascii h ih
  | two h1 h2 h3 _ ih => exact Utf8.two h1 h2 h3 ih
  | three h1 h2 h3 h4 _ ih => exact Utf8.three h1 h2 h3 h4 ih
  | four h1 h2 h3 h4 h5 _ ih => exact Utf8.four h1 h2 h3 h4 h5 ih

theorem isCont_ne_zero {c : Nat} (h : isCont c = true) : c ≠ 0 := by
  simp [isCont] at h
  omega

theorem cont3_ne_zero {b c : Nat} (h : cont3 b c = true) : c ≠ 0 := by
  unfold cont3 at h
  split at h
  · simp at h; omega
  · split at h
    · simp at h; omega
    · exact isCont_ne_zero h

theorem cont4_ne_zero {b c : Nat} (h : cont4 b c = true) : c ≠ 0 := by
  unfold cont4 at h
  split at h
  · simp at h; omega
  · split at h
    · simp at h; omega
    · exact isCont_ne_zero h

theorem Utf8.takeWhileNonzero {l : List Nat} (h : Utf8 l) :
    Utf8 (l.takeWhile (fun x => x != 0)) := by
  induction h with
  | nil => exact Utf8.nil
  | ascii hb hd ih =>
    rename_i b rest
    by_cases h0 : b = 0
    · subst h0
      rw [List.takeWhile_cons, if_neg (by simp)]
      exact Utf8.nil
    · rw [List.takeWhile_cons, if_pos (by simp [h0])]
      exact Utf8.ascii hb ih
  | two h1 h2 h3 hd ih =>
    rename_i b c1 rest
    rw [List.takeWhile_cons, if_pos (by simp; omega),
      List.takeWhile_cons, if_pos (by simp [isCont_ne_zero h3])]
    exact Utf8.two h1 h2 h3 ih
  | three h1 h2 h3 h4 hd ih =>
    rename_i b c1 c2 rest
    rw [List.takeWhile_cons, if_pos (by simp; omega),
      List.takeWhile_cons, if_pos (by simp [cont3_ne_zero h3]),
      List.takeWhile_cons, if_pos (by simp [isCont_ne_zero h4])]
    exact Utf8.three h1 h2 h3 h4 ih
  | four h1 h2 h3 h4 h5 hd ih =>
    rename_i b c1 c2 c3 rest
    rw [List.takeWhile_cons, if_pos (by simp; omega),
      List.takeWhile_cons, if_pos (by simp [cont4_ne_zero h3]),
      List.takeWhile_cons, if_pos (by simp [isCont_ne_zero h4]),
      List.takeWhile_cons, if_pos (by simp [isCont_ne_zero h5])]
    exact Utf8.four h1 h2 h3 h4 h5 ih

theorem utf8Valid_of (l : List Nat) (h : Utf8 l) : utf8Valid l = true := by
  induction h with
  | nil => simp [utf8Valid]
  | ascii hb hd ih =>
    rename_i b rest
    rw [utf8Valid, if_pos hb]
    exact ih
  | two h1 h2 h3 hd ih =>
    rename_i b c1 rest
    rw [utf8Valid, if_neg (by omega), if_neg (by omega), if_pos h2]
    simp [utf8Tail1, h3, ih]
  | three h1 h2 h3 h4 hd ih =>
    rename_i b c1 c2 rest
    rw [utf8Valid, if_neg (by omega), if_neg (by omega), if_neg (by omega), if_pos h2]
    simp [utf8Tail2, h3, h4, ih]
  | four h1 h2 h3 h4 h5 hd ih =>
    rename_i b c1 c2 c3 rest
    rw [utf8Valid, if_neg (by omega), if_neg (by omega), if_neg (by omega),
      if_neg (by omega), if_pos h2]
    simp [utf8Tail3, h3, h4, h5, ih]

theorem utf8Valid_to_aux :
    ∀ (n : Nat) (l : List Nat), l.length ≤ n → utf8Valid l = true → Utf8 l := by
  intro n
  induction n with
  | zero =>
    intro l hl _
    have : l = [] := List.eq_nil_of_length_eq_zero (by omega)
    subst this
    exact Utf8.nil
  | succ n ih =>
    intro l hl h
    cases l with
    | nil => exact Utf8.nil
    | cons b rest =>
      rw [utf8Valid] at h
      by_cases h1 : b ≤ 0x7F
      · rw [if_pos h1] at h
        exact Utf8.ascii h1 (ih rest (by simp at hl; omega) h)
      · rw [if_neg h1] at h
        by_cases h2 : b < 0xC2
        · rw [if_pos h2] at h
          simp at h
        · rw [if_neg h2] at h
          by_cases h3 : b ≤ 0xDF
          · rw [if_pos h3] at h
            cases rest with
            | nil => simp [utf8Tail1] at h
            | cons c1 r =>
              rw [utf8Tail1] at h
              simp only [Bool.and_eq_true] at h
              exact Utf8.two (by omega) h3 h.1 (ih r (by simp at hl; omega) h.2)
          · rw [if_neg h3] at h
            by_cases h4 : b ≤ 0xEF
            · rw [if_pos h4] at h
              cases rest with
              | nil => simp [utf8Tail2] at h
              | cons c1 r1 =>
                cases r1 with
                | nil => simp [utf8Tail2] at h
                | cons c2 r =>
                  rw [utf8Tail2] at h
                  simp only [Bool.and_eq_true] at h
                  exact Utf8.three (by omega) h4 h.1.1 h.1.2
                    (ih r (by simp at hl; omega) h.2)
            · rw [if_neg h4] at h
              by_cases h5 : b ≤ 0xF4
              · rw [if_pos h5] at h
                cases rest with
                | nil => simp [utf8Tail3] at h
                | cons c1 r1 =>
                  cases r1 with
                  | nil => simp [utf8Tail3] at h
                  | cons c2 r2 =>
                    cases r2 with
                    | nil => simp [utf8Tail3] at h
                    | cons c3 r =>
                      rw [utf8Tail3] at h
                      simp only [Bool.and_eq_true] at h
                      exact Utf8.four (by omega) h5 h.1.1.1 h.1.1.2 h.1.2
                        (ih r (by simp at hl; omega) h.2)
              · rw [if_neg h5] at h
                simp at h

theorem utf8Valid_iff {l : List Nat} : utf8Valid l = true ↔ Utf8 l :=
  ⟨utf8Valid_to_aux l.length l le_rfl, utf8Valid_of l⟩

instance utf8Decidable (l : List Nat) : Decidable (Utf8 l) :=
  decidable_of_iff (utf8Valid l = true) utf8Valid_iff

theorem push_preserves_utf8 (buf s : List Nat) (hbuf : Utf8 (deref buf))
    (hs : Utf8 s) : Utf8 (deref (try_push_str buf s).1) := by
  by_cases hle : s.length ≤ capacity buf - len buf
  · rw [(try_push_str_ok buf s hle).2.2.1]
    exact Utf8.append hbuf (Utf8.takeWhileNonzero hs)
  · rw [try_push_str_err buf s (by omega)]
    exact hbuf

theorem fromStr_ok (g T : List Nat) (hnul : ∀ x ∈ T, x ≠ 0)
    (hlen : T.length ≤ g.length) :
    ∃ b, fromStr T g = .ok b ∧ deref b = T := by
  have hnew : len (new g) = 0 := new_len g
  have hcap : capacity (new g) = g.length := by simp [capacity, new_length]
  have hle : T.length ≤ capacity (new g) - len (new g) := by omega
  obtain ⟨hok, hlen2, hview, hl⟩ := try_push_str_ok (new g) T hle
  refine ⟨(try_push_str (new g) T).1, ?_, ?_⟩
  · simp only [fromStr]
    rw [hok]
  · rw [hview, new_deref, takeWhile_eq_self_of_all T hnul, List.nil_append]

theorem fromStr_err (g T : List Nat) (hlen : g.length < T.length) :
    fromStr T g = .error ⟨T⟩ := by
  have hnew : len (new g) = 0 := new_len g
  have hcap : capacity (new g) = g.length := by simp [capacity, new_length]
  have herr := try_push_str_err (new g) T (by omega)
  simp only [fromStr]
  rw [herr]

/-- C1: for every capacity N and every UTF-8 text T whose byte length is at
most N and which contains no NUL codepoint (equivalently, no 0x00 byte),
the fallible from-text constructor succeeds, whatever the uninitialized
initial buffer contents g of capacity N were, and the text view of the
resulting value is exactly T. -/
theorem from_text_roundtrip (N : Nat) (g T : List Nat) (hg : g.length = N)
    (_hT : Utf8 T) (hnul : ¬ 0 ∈ T) (hlen : T.length ≤ N) :
    ∃ b, fromStr T g = .ok b ∧ deref b = T := by
  apply fromStr_ok
  · intro x hx h0
    exact hnul (h0 ▸ hx)
  · omega

/-- Witness for C1: capacity 3, text "hi" (bytes 104 105), junk initial
buffer contents. -/
theorem from_text_roundtrip_witness :
    ∃ b, fromStr [104, 105] [9, 9, 9] = .ok b ∧ deref b = [104, 105] :=
  from_text_roundtrip 3 [9, 9, 9] [104, 105] rfl (by decide) (by decide) (by decide)

/-- C2: try_push_str fails with a CapacityError carrying back exactly s iff
the byte length of s exceeds capacity minus current length; moreover every
failure leaves the buffer exactly as it was before the call (hence the text
view and length too) and the error element is exactly s. -/
theorem try_push_str_capacity_spec (buf s : List Nat) :
    ((try_push_str buf s).2 = .error ⟨s⟩ ↔ capacity buf - len buf < s.length)
    ∧ (∀ e, (try_push_str buf s).2 = .error e →
        (try_push_str buf s).1 = buf ∧ e = ⟨s⟩) := by
  constructor
  · constructor
    · intro h
      by_contra hc
      have hle : s.length ≤ capacity buf - len buf := by omega
      rw [(try_push_str_ok buf s hle).1] at h
      exact absurd h (by simp)
    · intro h
      rw [try_push_str_err buf s h]
  · intro e he
    by_cases hle : s.length ≤ capacity buf - len buf
    · rw [(try_push_str_ok buf s hle).1] at he
      exact absurd he (by simp)
    · have herr := try_push_str_err buf s (by omega)
      rw [herr] at he
      simp at he
      rw [herr]
      exact ⟨rfl, by simp [he]⟩

/-- Witness for C2: pushing a two-byte text into a capacity-2 value already
holding one byte fails carrying the text back, and the buffer is
unchanged. -/
theorem try_push_str_capacity_spec_witness :
    (try_push_str [97, 0] [98, 99]).2 = .error ⟨[98, 99]⟩ ∧
    (try_push_str [97, 0] [98, 99]).1 = [97, 0] :=
  ⟨(try_push_str_capacity_spec [97, 0] [98, 99]).1.mpr (by decide),
   ((try_push_str_capacity_spec [97, 0] [98, 99]).2 ⟨[98, 99]⟩ rfl).1⟩

/-- C3 counterexample: the one-byte text holding just the NUL codepoint is
a genuine UTF-8 text, and pushing it into an empty capacity-1 value
succeeds, yet the new length is 0 and not old length + 1: the pushed NUL
byte is read back as the sentinel. -/
theorem try_push_str_len_counterexample :
    Utf8 [0] ∧ (try_push_str [0] [0]).2 = .ok () ∧
    ¬ len (try_push_str [0] [0]).1 = len [0] + ([0] : List Nat).length :=
  ⟨by decide, rfl, by decide⟩

/-- C3 amended: for every value and every text s containing no NUL
codepoint, if try_push_str succeeds then the new length equals the old
length plus the byte length of s. -/
theorem try_push_str_len (buf s : List Nat) (hnul : ¬ 0 ∈ s)
    (hok : (try_push_str buf s).2 = .ok ()) :
    len (try_push_str buf s).1 = len buf + s.length := by
  by_cases hle : s.length ≤ capacity buf - len buf
  · have h := (try_push_str_ok buf s hle).2.2.2
    rw [takeWhile_eq_self_of_all s (fun x hx h0 => hnul (h0 ▸ hx))] at h
    exact h
  · rw [try_push_str_err buf s (by omega)] at hok
    simp at hok

/-- Witness for C3 amended: pushing "a" into an empty capacity-2 value
gives length 1. -/
theorem try_push_str_len_witness :
    len (try_push_str [0, 0] [97]).1 = len [0, 0] + [97].length :=
  try_push_str_len [0, 0] [97] (by decide) rfl

/-- C4: len scans the buffer for the first 0x00 byte: when the first zero
sits at index k the result is k, when no byte is zero the result is the
capacity, and the result never exceeds the capacity. -/
theorem len_scan_spec (buf : List Nat) :
    (∀ k : Nat, buf[k]? = some 0 → (∀ j : Nat, j < k → ¬ buf[j]? = some 0) →
      len buf = k)
    ∧ ((∀ k : Nat, ¬ buf[k]? = some 0) → len buf = capacity buf)
    ∧ len buf ≤ capacity buf := by
  have hs := sentinel_all buf
  have hle := len_le_length buf
  refine ⟨?_, ?_, hle⟩
  · intro k hk hbefore
    rcases Nat.lt_trichotomy (len buf) k with hlt | he | hgt
    · have hklen : k < buf.length := by
        by_contra hkl
        rw [List.getElem?_eq_none (by omega)] at hk
        exact absurd hk (by simp)
      exact absurd (hs.1 (by omega)) (hbefore (len buf) hlt)
    · exact he
    · exact absurd hk (hs.2 k hgt)
  · intro hall
    by_contra hne
    have hlt : len buf < buf.length := by
      have : capacity buf = buf.length := rfl
      omega
    exact hall (len buf) (hs.1 hlt)

/-- Witness for C4: first zero at index 1 gives length 1; a zero-free
buffer has length equal to its capacity. -/
theorem len_scan_spec_witness :
    len [7, 0, 9] = 1 ∧ len [5, 6] = capacity [5, 6] := by
  refine ⟨(len_scan_spec [7, 0, 9]).1 1 rfl ?_, (len_scan_spec [5, 6]).2.1 ?_⟩
  · intro j hj
    match j with
    | 0 => decide
  · intro k
    match k with
    | 0 => decide
    | 1 => decide
    | n + 2 => simp

/-- C5: the sentinel-encoding invariant I1 (SentinelInv) and the UTF-8
invariant I2 (the text view is valid UTF-8) hold for every value produced
by the constructors new, fromStr and from_byte_string, and are preserved by
the mutations try_push_str, push_str and clear. -/
theorem invariants_hold :
    (∀ g, SentinelInv (new g) ∧ Utf8 (deref (new g)))
    ∧ (∀ s g b, Utf8 s → fromStr s g = .ok b → SentinelInv b ∧ Utf8 (deref b))
    ∧ (∀ b v, from_byte_string b = .ok v → SentinelInv v ∧ Utf8 (deref v))
    ∧ (∀ buf s, Utf8 (deref buf) → Utf8 s →
        SentinelInv (try_push_str buf s).1 ∧ Utf8 (deref (try_push_str buf s).1))
    ∧ (∀ buf s b, Utf8 (deref buf) → Utf8 s → push_str buf s = some b →
        SentinelInv b ∧ Utf8 (deref b))
    ∧ (∀ buf, SentinelInv (clear buf) ∧ Utf8 (deref (clear buf))) := by
  refine ⟨?_, ?_, ?_, ?_, ?_, ?_⟩
  · intro g
    exact ⟨sentinel_all _, by rw [new_deref]; exact Utf8.nil⟩
  · intro s g b hs hb
    simp only [fromStr] at hb
    cases hr : (try_push_str (new g) s).2 with
    | ok u =>
      rw [hr] at hb
      simp at hb
      subst hb
      refine ⟨sentinel_all _, ?_⟩
      apply push_preserves_utf8
      · rw [new_deref]; exact Utf8.nil
      · exact hs
    | error e =>
      rw [hr] at hb
      simp at hb
  · intro b v hv
    unfold from_byte_string at hv
    split at hv
    · simp at hv
      subst hv
      rename_i hvalid
      refine ⟨sentinel_all _, ?_⟩
      rw [deref_eq_takeWhile]
      exact Utf8.takeWhileNonzero (utf8Valid_iff.mp hvalid)
    · simp at hv
  · intro buf s hbuf hs
    exact ⟨sentinel_all _, push_preserves_utf8 buf s hbuf hs⟩
  · intro buf s b hbuf hs hb
    unfold push_str at hb
    cases hr : try_push_str buf s with
    | mk b2 r =>
      rw [hr] at hb
      cases r with
      | ok u =>
        simp at hb
        subst hb
        refine ⟨sentinel_all _, ?_⟩
        have := push_preserves_utf8 buf s hbuf hs
        rw [hr] at this
        exact this
      | error e => simp at hb
  · intro buf
    exact ⟨sentinel_all _, by rw [clear_deref]; exact Utf8.nil⟩

/-- Witness for C5: pushing "a" into an empty capacity-3 value and
constructing from the raw one-byte buffer "h" both give values satisfying
both invariants. -/
theorem invariants_hold_witness :
    (SentinelInv (try_push_str [0, 9, 9] [97]).1 ∧
      Utf8 (deref (try_push_str [0, 9, 9] [97]).1)) ∧
    (SentinelInv [104] ∧ Utf8 (deref [104])) :=
  ⟨invariants_hold.2.2.2.1 [0, 9, 9] [97] (by decide) (by decide),
   invariants_hold.2.2.1 [104] [104] rfl⟩

/-- C6 counterexample: at capacity 0 there is no first buffer byte; the
source reads out of bounds there, modelled as reading no byte, and
is_empty after clear is false rather than true, refuting the claim at
capacity 0. -/
theorem clear_is_empty_counterexample :
    ¬ is_empty (clear ([] : List Nat)) = true := by decide

/-- C6 amended: for every capacity of at least 1, clear always succeeds and
a subsequent is_empty returns true; clear sets the first buffer byte to
0x00 and leaves every other byte of the buffer untouched. -/
theorem clear_spec (buf : List Nat) (h : 0 < buf.length) :
    is_empty (clear buf) = true ∧ (clear buf)[0]? = some 0 ∧
    ∀ k : Nat, k ≠ 0 → (clear buf)[k]? = buf[k]? := by
  cases buf with
  | nil => simp at h
  | cons b t =>
    refine ⟨rfl, by simp [clear], ?_⟩
    intro k hk
    match k with
    | n + 1 => simp [clear]

/-- Witness for C6 amended: a capacity-2 buffer holding junk. -/
theorem clear_spec_witness :
    is_empty (clear [5, 6]) = true ∧ (clear [5, 6])[1]? = [5, 6][1]? :=
  ⟨(clear_spec [5, 6] (by decide)).1, (clear_spec [5, 6] (by decide)).2.2 1 (by decide)⟩

/-- C7: the from-raw-buffer constructor fails iff the supplied bytes are
not valid UTF-8, its error is the encoding error type (distinct from the
capacity error type, which it can never produce), and on success it returns
exactly the supplied bytes. -/
theorem from_byte_string_spec (b : List Nat) :
    ((∃ e, from_byte_string b = .error e) ↔ ¬ Utf8 b)
    ∧ (∀ v, from_byte_string b = .ok v → v = b) := by
  unfold from_byte_string
  by_cases hv : utf8Valid b
  · rw [if_pos hv]
    refine ⟨⟨?_, ?_⟩, ?_⟩
    · rintro ⟨e, he⟩
      exact absurd he (by simp)
    · intro hn
      exact absurd (utf8Valid_iff.mp hv) hn
    · intro v hv2
      simp at hv2
      exact hv2.symm
  · rw [if_neg hv]
    refine ⟨⟨?_, ?_⟩, ?_⟩
    · intro _ hu
      exact hv (utf8Valid_of b hu)
    · intro _
      exact ⟨⟨⟩, rfl⟩
    · intro v hv2
      exact absurd hv2 (by simp)

/-- Witness for C7: the lone byte 0xFF is not UTF-8 and construction from
it fails. -/
theorem from_byte_string_spec_witness :
    ∃ e, from_byte_string [255] = .error e :=
  (from_byte_string_spec [255]).1.mpr (by decide)

/-- C8: two values of the same capacity are equal iff their text views are
byte-for-byte equal, whatever the buffer bytes beyond each length are; and
equality between a value and a plain text compares the view against that
text the same way in both argument orders. -/
theorem eq_spec (a b s : List Nat) (_hcap : capacity a = capacity b) :
    (eqRaw a b = true ↔ deref a = deref b)
    ∧ (eqRawStr a s = true ↔ deref a = s)
    ∧ (eqStrRaw s a = true ↔ s = deref a) := by
  refine ⟨?_, ?_, ?_⟩ <;> simp [eqRaw, eqRawStr, eqStrRaw]

/-- Witness for C8: two capacity-3 values holding "h" with different junk
tail bytes compare equal, and both mixed comparisons hold. -/
theorem eq_spec_witness :
    eqRaw [104, 0, 7] [104, 0, 9] = true ∧ eqRawStr [104, 0, 7] [104] = true ∧
    eqStrRaw [104] [104, 0, 9] = true :=
  ⟨(eq_spec [104, 0, 7] [104, 0, 9] [104] rfl).1.mpr (by decide),
   (eq_spec [104, 0, 7] [104, 0, 9] [104] rfl).2.1.mpr (by decide),
   (eq_spec [104, 0, 9] [104, 0, 7] [104] rfl).2.2.mpr (by decide)⟩

/-- C9: encoding a value and decoding the encoded text reproduces a value
whose text view is exactly the original text view, for every fresh-buffer
contents g of the same capacity (the view itself is always NUL-free and not
longer than the capacity); decoding a text longer than the capacity fails
with the length-mismatch failure reporting the input length and the
capacity. -/
theorem serde_roundtrip_spec :
    (∀ buf g : List Nat, g.length = buf.length →
      ∃ b, visit_str g (serialize buf) = .ok b ∧ deref b = deref buf)
    ∧ (∀ g v : List Nat, g.length < v.length →
      visit_str g v = .error (.invalidLength v.length g.length)) := by
  constructor
  · intro buf g hg
    have h2 : (deref buf).length ≤ g.length := by
      rw [deref_length, hg]
      exact len_le_length buf
    obtain ⟨b, hb, hv⟩ := fromStr_ok g (deref buf) (mem_deref_ne_zero buf) h2
    refine ⟨b, ?_, hv⟩
    unfold visit_str serialize
    rw [hb]
  · intro g v hlen
    unfold visit_str
    rw [fromStr_err g v hlen]

/-- Witness for C9: capacity 2, value holding "h"; and decoding the
three-byte text "abc" at capacity 2 fails reporting 3 against 2. -/
theorem serde_roundtrip_spec_witness :
    (∃ b, visit_str [9, 9] (serialize [104, 0]) = .ok b ∧ deref b = deref [104, 0]) ∧
    visit_str [9, 9] [97, 98, 99] = .error (.invalidLength 3 2) :=
  ⟨serde_roundtrip_spec.1 [104, 0] [9, 9] rfl,
   serde_roundtrip_spec.2 [9, 9] [97, 98, 99] (by decide)⟩

/-- C10: for every buffer, whatever its contents, len is at most capacity,
so the subtraction capacity minus len inside try_push_str never
underflows: its integer value is nonnegative. -/
theorem len_le_capacity (buf : List Nat) :
    len buf ≤ capacity buf ∧ 0 ≤ (capacity buf : Int) - (len buf : Int) := by
  have h := len_le_length buf
  have hcap : capacity buf = buf.length := rfl
  constructor
  · omega
  · have h2 : (len buf : Int) ≤ (buf.length : Int) := by exact_mod_cast h
    omega

end RawArrayString
